import Mathlib

/-!
Verification of the change-detection pipeline of a syllabus-scraping
repository.  The development shallowly embeds the TypeScript sources:

* `normalizeText` — `src/utils.ts` whitespace canonicalizer
  (`.replace(/\r?\n+/g," ").replace(/\s+/g," ").replace(/ /g," ").trim()`);
* `makeHash` — SHA-256 fingerprint of the canonicalized fields;
* `compareCourses` — three-way snapshot diff over id-keyed maps;
* `loadPrev` / `saveCurr` — snapshot persistence;
* the bounded worker pool of `src/scrape.ts` as a small-step machine;
* the id-resolution rule of `fetchDetail`.
-/

set_option maxHeartbeats 1000000

/-- The character class matched by the JavaScript regular-expression
whitespace metacharacter (ECMAScript `\s`), which is also the set trimmed
by `String.prototype.trim`. -/
def isWs (c : Char) : Bool :=
  decide (c = ' ' ∨ c = '\t' ∨ c = '\n' ∨ c = '\r' ∨ c = '\x0b' ∨ c = '\x0c' ∨
    c = '\u00A0' ∨ c = '\u1680' ∨ (0x2000 ≤ c.toNat ∧ c.toNat ≤ 0x200A) ∨
    c = '\u2028' ∨ c = '\u2029' ∨ c = '\u202F' ∨ c = '\u205F' ∨ c = '\u3000' ∨
    c = '\uFEFF')

/-- `.replace(/\r?\n+/g, " ")`: each leftmost-longest match of an optional
carriage return followed by a run of newlines becomes one space. -/
def step1 : List Char → List Char
  | [] => []
  | c :: cs =>
    if c = '\r' ∧ cs.head? = some '\n' then
      ' ' :: step1 (cs.dropWhile (fun x => x == '\n'))
    else if c = '\n' then
      ' ' :: step1 (cs.dropWhile (fun x => x == '\n'))
    else
      c :: step1 cs
termination_by l => l.length
decreasing_by
  · exact Nat.lt_succ_of_le (List.Sublist.length_le (List.dropWhile_sublist _))
  · exact Nat.lt_succ_of_le (List.Sublist.length_le (List.dropWhile_sublist _))
  · exact Nat.lt_succ_of_le (Nat.le_refl _)

/-- `.replace(/\s+/g, " ")`: each maximal whitespace run becomes one space. -/
def step2 : List Char → List Char
  | [] => []
  | c :: cs =>
    if isWs c then ' ' :: step2 (cs.dropWhile isWs) else c :: step2 cs
termination_by l => l.length
decreasing_by
  · exact Nat.lt_succ_of_le (List.Sublist.length_le (List.dropWhile_sublist _))
  · exact Nat.lt_succ_of_le (Nat.le_refl _)

/-- `.replace(/ /g, " ")`: non-breaking spaces become ordinary spaces. -/
def nbspToSpace (l : List Char) : List Char :=
  l.map (fun c => if c = '\u00A0' then ' ' else c)

/-- Remove trailing whitespace. -/
def rtrim (l : List Char) : List Char :=
  (l.reverse.dropWhile isWs).reverse

/-- `String.prototype.trim`: remove leading and trailing whitespace. -/
def trimWs (l : List Char) : List Char :=
  rtrim (l.dropWhile isWs)

/-- `normalizeText` from `src/utils.ts`:
`(s ?? "").replace(/\r?\n+/g," ").replace(/\s+/g," ").replace(/ /g," ").trim()`. -/
def normalizeText (s : String) : String :=
  String.mk (trimWs (nbspToSpace (step2 (step1 s.data))))

/-- The maximal whitespace-free words of a character list, in order. -/
def specWords : List Char → List (List Char)
  | [] => []
  | c :: cs =>
    if isWs c then specWords cs
    else (c :: cs.takeWhile (fun x => !isWs x)) :: specWords (cs.dropWhile (fun x => !isWs x))
termination_by l => l.length
decreasing_by
  · exact Nat.lt_succ_of_le (Nat.le_refl _)
  · exact Nat.lt_succ_of_le (List.Sublist.length_le (List.dropWhile_sublist _))

/-- Join words with a single space between consecutive words. -/
def joinWords : List (List Char) → List Char
  | [] => []
  | [w] => w
  | w :: v :: ws => w ++ ' ' :: joinWords (v :: ws)

/-- Modelled from the spec: "Collapses all run(s) of line breaks and
whitespace (including non-breaking space) into a single ordinary space and
trims leading/trailing whitespace" — i.e. the maximal whitespace-free words
joined by single spaces. -/
def canonicalizeSpec (s : String) : String :=
  String.mk (joinWords (specWords s.data))

theorem isWs_space : isWs ' ' = true := by decide

theorem isWs_newline : isWs '\n' = true := by decide

theorem isWs_cr : isWs '\r' = true := by decide

theorem isWs_nbsp : isWs '\u00A0' = true := by decide

theorem nbsp_ne_space : ('\u00A0' : Char) ≠ ' ' := by decide

theorem step1_nil : step1 [] = [] := by rw [step1]

theorem step1_cons (c : Char) (cs : List Char) :
    step1 (c :: cs) =
      if c = '\r' ∧ cs.head? = some '\n' then
        ' ' :: step1 (cs.dropWhile (fun x => x == '\n'))
      else if c = '\n' then
        ' ' :: step1 (cs.dropWhile (fun x => x == '\n'))
      else c :: step1 cs := by
  rw [step1]

theorem step2_nil : step2 [] = [] := by rw [step2]

theorem step2_cons (c : Char) (cs : List Char) :
    step2 (c :: cs) =
      if isWs c then ' ' :: step2 (cs.dropWhile isWs) else c :: step2 cs := by
  rw [step2]

theorem specWords_nil : specWords [] = [] := by rw [specWords]

theorem specWords_cons (c : Char) (cs : List Char) :
    specWords (c :: cs) =
      if isWs c then specWords cs
      else (c :: cs.takeWhile (fun x => !isWs x)) ::
        specWords (cs.dropWhile (fun x => !isWs x)) := by
  rw [specWords]

theorem specWords_ws_cons {c : Char} (cs : List Char) (h : isWs c = true) :
    specWords (c :: cs) = specWords cs := by
  rw [specWords_cons, if_pos h]

theorem specWords_not_ws_cons {c : Char} (cs : List Char) (h : isWs c = false) :
    specWords (c :: cs) =
      (c :: cs.takeWhile (fun x => !isWs x)) ::
        specWords (cs.dropWhile (fun x => !isWs x)) := by
  rw [specWords_cons, if_neg (by simp [h])]

theorem specWords_dropWhile {p : Char → Bool} (h : ∀ c, p c = true → isWs c = true) :
    ∀ l : List Char, specWords (l.dropWhile p) = specWords l
  | [] => rfl
  | c :: cs => by
    by_cases hc : p c = true
    · rw [List.dropWhile_cons, if_pos hc, specWords_dropWhile h cs,
        specWords_ws_cons cs (h c hc)]
    · rw [List.dropWhile_cons, if_neg hc]

theorem takeWhile_app {q : Char → Bool} {t : List Char} (d : List Char)
    (h : ∀ x ∈ t, q x = true) (hd : ∀ c, d.head? = some c → q c = false) :
    (t ++ d).takeWhile q = t := by
  induction t with
  | nil =>
    cases d with
    | nil => rfl
    | cons c cs => simp [List.takeWhile_cons, hd c rfl]
  | cons x xs ih =>
    simp only [List.cons_append, List.takeWhile_cons,
      h x (List.mem_cons_self x xs), if_pos]
    rw [ih (fun y hy => h y (List.mem_cons_of_mem _ hy))]

theorem dropWhile_app {q : Char → Bool} {t : List Char} (d : List Char)
    (h : ∀ x ∈ t, q x = true) :
    (t ++ d).dropWhile q = d.dropWhile q := by
  induction t with
  | nil => rfl
  | cons x xs ih =>
    simp only [List.cons_append, List.dropWhile_cons,
      h x (List.mem_cons_self x xs), if_pos]
    exact ih (fun y hy => h y (List.mem_cons_of_mem _ hy))

theorem dropWhile_app_nonws {v : List Char} (u : List Char)
    (hv : ∀ x ∈ v, isWs x = false) :
    (u ++ v).dropWhile isWs = u.dropWhile isWs ++ v := by
  induction u with
  | nil =>
    cases v with
    | nil => rfl
    | cons c cs => simp [List.dropWhile_cons, hv c (List.mem_cons_self c cs)]
  | cons x xs ih =>
    by_cases hx : isWs x <;> simp [List.dropWhile_cons, hx, ih]

theorem dropWhile_app_exists {u : List Char} (v : List Char)
    (hu : ∃ x ∈ u, isWs x = false) :
    (u ++ v).dropWhile isWs = u.dropWhile isWs ++ v := by
  induction u with
  | nil =>
    rcases hu with ⟨x, hx, -⟩
    cases hx
  | cons y ys ih =>
    by_cases hy : isWs y
    · rcases hu with ⟨x, hx, hxf⟩
      rcases List.mem_cons.mp hx with rfl | hx'
      · rw [hy] at hxf; cases hxf
      · simp [List.dropWhile_cons, hy, ih ⟨x, hx', hxf⟩]
    · simp [List.dropWhile_cons, hy]

theorem rtrim_nil : rtrim [] = [] := rfl

theorem rtrim_app_nonws {A : List Char} (X : List Char)
    (h : ∀ x ∈ A, isWs x = false) :
    rtrim (A ++ X) = A ++ rtrim X := by
  unfold rtrim
  rw [List.reverse_append,
    dropWhile_app_nonws X.reverse (fun x hx => h x (List.mem_reverse.mp hx)),
    List.reverse_append, List.reverse_reverse]

theorem rtrim_space_cons {Y : List Char} (hY : ∃ x ∈ Y, isWs x = false) :
    rtrim (' ' :: Y) = ' ' :: rtrim Y := by
  unfold rtrim
  have h1 : (' ' :: Y).reverse = Y.reverse ++ [' '] := by simp
  rcases hY with ⟨x, hx, hxf⟩
  rw [h1, dropWhile_app_exists [' '] ⟨x, List.mem_reverse.mpr hx, hxf⟩,
    List.reverse_append]
  rfl

theorem dropWhile_head_false {p : Char → Bool} :
    ∀ {l : List Char} {c : Char}, (l.dropWhile p).head? = some c → p c = false := by
  intro l
  induction l with
  | nil => intro c h; cases h
  | cons x xs ih =>
    intro c h
    by_cases hx : p x = true
    · rw [List.dropWhile_cons, if_pos hx] at h
      exact ih h
    · rw [List.dropWhile_cons, if_neg hx] at h
      cases h
      exact Bool.not_eq_true _ ▸ (by simpa using hx)

theorem step1_front {t : List Char} (d : List Char)
    (h : ∀ x ∈ t, isWs x = false) :
    step1 (t ++ d) = t ++ step1 d := by
  induction t with
  | nil => rfl
  | cons x xs ih =>
    have hx : isWs x = false := h x (List.mem_cons_self x xs)
    have hx1 : ¬(x = '\r' ∧ (xs ++ d).head? = some '\n') := by
      rintro ⟨rfl, -⟩
      rw [isWs_cr] at hx
      cases hx
    have hx2 : ¬(x = '\n') := by
      rintro rfl
      rw [isWs_newline] at hx
      cases hx
    rw [List.cons_append, step1_cons, if_neg hx1, if_neg hx2,
      ih (fun y hy => h y (List.mem_cons_of_mem _ hy)), List.cons_append]

theorem step2_front {t : List Char} (d : List Char)
    (h : ∀ x ∈ t, isWs x = false) :
    step2 (t ++ d) = t ++ step2 d := by
  induction t with
  | nil => rfl
  | cons x xs ih =>
    rw [List.cons_append, step2_cons, if_neg (by simp [h x (List.mem_cons_self x xs)]),
      ih (fun y hy => h y (List.mem_cons_of_mem _ hy)), List.cons_append]

theorem step1_head_ws {d : List Char}
    (h : ∀ c, d.head? = some c → isWs c = true) :
    ∀ c, (step1 d).head? = some c → isWs c = true := by
  cases d with
  | nil => intro c hc; rw [step1_nil] at hc; cases hc
  | cons x xs =>
    intro c hc
    rw [step1_cons] at hc
    split at hc
    · cases hc; exact isWs_space
    · split at hc
      · cases hc; exact isWs_space
      · cases hc; exact h _ rfl

theorem dropWhile_head_id {q : Char → Bool} {X : List Char}
    (h : ∀ c, X.head? = some c → q c = false) : X.dropWhile q = X := by
  cases X with
  | nil => rfl
  | cons x xs =>
    rw [List.dropWhile_cons, if_neg (by simp [h x rfl])]

theorem specWords_step1 : ∀ l : List Char, specWords (step1 l) = specWords l
  | [] => by rw [step1_nil]
  | c :: cs => by
    have hdrop : specWords (cs.dropWhile (fun x => x == '\n')) = specWords cs :=
      specWords_dropWhile (fun x hx => by
        have hx' : x = '\n' := by simpa using hx
        rw [hx']; exact isWs_newline) cs
    by_cases h1 : c = '\r' ∧ cs.head? = some '\n'
    · rw [step1_cons, if_pos h1, specWords_ws_cons _ isWs_space,
        specWords_step1 (cs.dropWhile (fun x => x == '\n')), hdrop, h1.1,
        specWords_ws_cons cs isWs_cr]
    · by_cases h2 : c = '\n'
      · rw [step1_cons, if_neg h1, if_pos h2, specWords_ws_cons _ isWs_space,
          specWords_step1 (cs.dropWhile (fun x => x == '\n')), hdrop, h2,
          specWords_ws_cons cs isWs_newline]
      · rw [step1_cons, if_neg h1, if_neg h2]
        by_cases hw : isWs c
        · rw [specWords_ws_cons _ hw, specWords_ws_cons cs hw]
          exact specWords_step1 cs
        · have hwf : isWs c = false := by simpa using hw
          have ht : ∀ x ∈ cs.takeWhile (fun x => !isWs x), isWs x = false :=
            fun x hx => by simpa using List.mem_takeWhile_imp hx
          have hcs : cs.takeWhile (fun x => !isWs x) ++ cs.dropWhile (fun x => !isWs x) = cs :=
            List.takeWhile_append_dropWhile _ _
          have hstep : step1 cs =
              cs.takeWhile (fun x => !isWs x) ++ step1 (cs.dropWhile (fun x => !isWs x)) := by
            conv_lhs => rw [← hcs]
            exact step1_front _ ht
          have hdws : ∀ x, ((cs.dropWhile (fun x => !isWs x)).head? = some x) → isWs x = true := by
            intro x hx
            have hx' := dropWhile_head_false hx
            simpa using hx'
          have hd1 : ∀ x, ((step1 (cs.dropWhile (fun x => !isWs x))).head? = some x) → isWs x = true :=
            step1_head_ws hdws
          rw [specWords_not_ws_cons _ hwf, specWords_not_ws_cons cs hwf, hstep,
            takeWhile_app _ (fun x hx => by simp [ht x hx])
              (fun x hx => by simp [hd1 x hx]),
            dropWhile_app _ (fun x hx => by simp [ht x hx]),
            dropWhile_head_id (fun x hx => by simp [hd1 x hx]),
            specWords_step1 (cs.dropWhile (fun x => !isWs x))]
termination_by l => l.length
decreasing_by
  all_goals
    simp only [List.length_cons]
    first
      | exact Nat.lt_succ_of_le (List.Sublist.length_le (List.dropWhile_sublist _))
      | exact Nat.lt_succ_of_le (Nat.le_refl _)

theorem trimWs_nil : trimWs [] = [] := rfl

theorem trimWs_ws_cons {c : Char} (l : List Char) (h : isWs c = true) :
    trimWs (c :: l) = trimWs l := by
  unfold trimWs
  rw [List.dropWhile_cons, if_pos (by simp [h])]

theorem joinWords_nil : joinWords [] = [] := rfl

theorem joinWords_single (w : List Char) : joinWords [w] = w := rfl

theorem joinWords_cons2 (w v : List Char) (ws : List (List Char)) :
    joinWords (w :: v :: ws) = w ++ ' ' :: joinWords (v :: ws) := rfl

theorem trim_step2 : ∀ l : List Char, trimWs (step2 l) = joinWords (specWords l)
  | [] => by rw [step2_nil, specWords_nil, joinWords_nil, trimWs_nil]
  | c :: cs => by
    by_cases hw : isWs c
    · rw [step2_cons, if_pos hw, trimWs_ws_cons _ isWs_space,
        trim_step2 (cs.dropWhile isWs),
        specWords_dropWhile (fun _ h => h) cs, specWords_ws_cons cs hw]
    · have hwf : isWs c = false := by simpa using hw
      have ht : ∀ x ∈ cs.takeWhile (fun x => !isWs x), isWs x = false :=
        fun x hx => by simpa using List.mem_takeWhile_imp hx
      have hct : ∀ x ∈ c :: cs.takeWhile (fun x => !isWs x), isWs x = false := by
        intro x hx
        rcases List.mem_cons.mp hx with rfl | hx'
        · exact hwf
        · exact ht x hx'
      have hcs : cs.takeWhile (fun x => !isWs x) ++ cs.dropWhile (fun x => !isWs x) = cs :=
        List.takeWhile_append_dropWhile _ _
      have hstep : step2 cs =
          cs.takeWhile (fun x => !isWs x) ++ step2 (cs.dropWhile (fun x => !isWs x)) := by
        conv_lhs => rw [← hcs]
        exact step2_front _ ht
      rw [step2_cons, if_neg hw, specWords_not_ws_cons cs hwf, hstep]
      rcases hd : cs.dropWhile (fun x => !isWs x) with _ | ⟨w, ds⟩
      · rw [step2_nil, List.append_nil]
        unfold trimWs
        rw [dropWhile_head_id (q := isWs) (by
          intro x hx
          cases hx
          exact hwf)]
        have hr := rtrim_app_nonws (A := c :: cs.takeWhile (fun x => !isWs x)) [] hct
        rw [List.append_nil] at hr
        rw [hr, rtrim_nil, List.append_nil, specWords_nil, joinWords_single]
      · have hwws : isWs w = true := by
          have hh := dropWhile_head_false (l := cs) (p := fun x => !isWs x) (by rw [hd]; rfl)
          simpa using hh
        rw [step2_cons, if_pos hwws]
        rcases hE : ds.dropWhile isWs with _ | ⟨e, es⟩
        · rw [step2_nil]
          unfold trimWs
          rw [dropWhile_head_id (q := isWs) (by
            intro x hx
            cases hx
            exact hwf)]
          rw [← List.cons_append, rtrim_app_nonws [' '] hct]
          have hr : rtrim [' '] = [] := by
            unfold rtrim
            simp [List.dropWhile, isWs_space]
          have hds : specWords ds = [] := by
            rw [← specWords_dropWhile (fun _ h => h) ds, hE, specWords_nil]
          rw [hr, List.append_nil, specWords_ws_cons ds hwws, hds, joinWords_single]
        · have hef : isWs e = false := by
            have hh := dropWhile_head_false (l := ds) (p := isWs) (by rw [hE]; rfl)
            simpa using hh
          have hst : step2 (e :: es) = e :: step2 es := by
            rw [step2_cons, if_neg (by simp [hef])]
          rw [hst]
          unfold trimWs
          rw [dropWhile_head_id (q := isWs) (by
            intro x hx
            cases hx
            exact hwf)]
          rw [← List.cons_append,
            rtrim_app_nonws (' ' :: e :: step2 es) hct,
            rtrim_space_cons ⟨e, List.mem_cons_self _ _, hef⟩]
          have hrt : rtrim (e :: step2 es) = trimWs (e :: step2 es) := by
            unfold trimWs
            rw [dropWhile_head_id (q := isWs) (by
              intro x hx
              cases hx
              exact hef)]
          rw [hrt, ← hst, trim_step2 (e :: es),
            specWords_ws_cons ds hwws, ← specWords_dropWhile (fun _ h => h) ds, hE,
            specWords_not_ws_cons es hef, joinWords_cons2]
termination_by l => l.length
decreasing_by
  · simp only [List.length_cons]
    exact Nat.lt_succ_of_le (List.Sublist.length_le (List.dropWhile_sublist _))
  · have h1 : (e :: es).length ≤ ds.length := by
      rw [← hE]
      exact List.Sublist.length_le (List.dropWhile_sublist _)
    have h2 : (w :: ds).length ≤ cs.length := by
      rw [← hd]
      exact List.Sublist.length_le (List.dropWhile_sublist _)
    simp only [List.length_cons] at h1 h2 ⊢
    omega

theorem step2_chars : ∀ l : List Char, ∀ c ∈ step2 l, isWs c = true → c = ' '
  | [] => by
    intro c hc
    rw [step2_nil] at hc
    cases hc
  | x :: xs => by
    intro c hc hws
    by_cases hx : isWs x
    · rw [step2_cons, if_pos hx] at hc
      rcases List.mem_cons.mp hc with rfl | hc'
      · rfl
      · exact step2_chars (xs.dropWhile isWs) c hc' hws
    · rw [step2_cons, if_neg hx] at hc
      rcases List.mem_cons.mp hc with rfl | hc'
      · exact absurd hws hx
      · exact step2_chars xs c hc' hws
termination_by l => l.length
decreasing_by
  all_goals
    simp only [List.length_cons]
    first
      | exact Nat.lt_succ_of_le (List.Sublist.length_le (List.dropWhile_sublist _))
      | exact Nat.lt_succ_of_le (Nat.le_refl _)

theorem nbspToSpace_id {l : List Char} (h : ∀ c ∈ l, c ≠ '\u00A0') :
    nbspToSpace l = l := by
  unfold nbspToSpace
  induction l with
  | nil => rfl
  | cons x xs ih =>
    have hx : (if x = '\u00A0' then ' ' else x) = x :=
      if_neg (h x (List.mem_cons_self x xs))
    simp only [List.map_cons, hx]
    rw [ih (fun y hy => h y (List.mem_cons_of_mem _ hy))]

theorem normalizeText_data (s : String) :
    (normalizeText s).data = joinWords (specWords s.data) := by
  unfold normalizeText
  have h2 : ∀ c ∈ step2 (step1 s.data), c ≠ '\u00A0' := by
    intro c hc hceq
    have hsp := step2_chars _ c hc (by rw [hceq]; exact isWs_nbsp)
    rw [hceq] at hsp
    exact nbsp_ne_space hsp
  show trimWs (nbspToSpace (step2 (step1 s.data))) = _
  rw [nbspToSpace_id h2, trim_step2 (step1 s.data), specWords_step1 s.data]

theorem canonicalizeSpec_data (s : String) :
    (canonicalizeSpec s).data = joinWords (specWords s.data) := rfl

theorem specWords_valid :
    ∀ l : List Char, ∀ w ∈ specWords l, w ≠ [] ∧ ∀ c ∈ w, isWs c = false
  | [] => by
    intro w hw
    rw [specWords_nil] at hw
    cases hw
  | c :: cs => by
    intro w hw
    by_cases hc : isWs c
    · rw [specWords_ws_cons cs hc] at hw
      exact specWords_valid cs w hw
    · have hcf : isWs c = false := by simpa using hc
      rw [specWords_not_ws_cons cs hcf] at hw
      rcases List.mem_cons.mp hw with rfl | hw'
      · refine ⟨by simp, ?_⟩
        intro x hx
        rcases List.mem_cons.mp hx with rfl | hx'
        · exact hcf
        · simpa using List.mem_takeWhile_imp hx'
      · exact specWords_valid (cs.dropWhile (fun x => !isWs x)) w hw'
termination_by l => l.length
decreasing_by
  all_goals
    simp only [List.length_cons]
    first
      | exact Nat.lt_succ_of_le (List.Sublist.length_le (List.dropWhile_sublist _))
      | exact Nat.lt_succ_of_le (Nat.le_refl _)

theorem takeWhile_all {q : Char → Bool} {t : List Char} (h : ∀ x ∈ t, q x = true) :
    t.takeWhile q = t := by
  have h2 := takeWhile_app (t := t) (d := []) h (fun c hc => by cases hc)
  simpa using h2

theorem dropWhile_all {q : Char → Bool} {t : List Char} (h : ∀ x ∈ t, q x = true) :
    t.dropWhile q = [] := by
  have h2 := dropWhile_app (t := t) (d := []) h
  simpa using h2

theorem specWords_joinWords :
    ∀ ws : List (List Char), (∀ w ∈ ws, w ≠ [] ∧ ∀ c ∈ w, isWs c = false) →
      specWords (joinWords ws) = ws
  | [], _ => by rw [joinWords_nil, specWords_nil]
  | [w], h => by
    rw [joinWords_single]
    obtain ⟨hne, hnw⟩ := h w (List.mem_cons_self _ _)
    rcases w with _ | ⟨x, t⟩
    · cases hne rfl
    · have hxf : isWs x = false := hnw x (List.mem_cons_self _ _)
      have htf : ∀ y ∈ t, isWs y = false := fun y hy => hnw y (List.mem_cons_of_mem _ hy)
      rw [specWords_not_ws_cons t hxf,
        takeWhile_all (fun y hy => by simp [htf y hy]),
        dropWhile_all (fun y hy => by simp [htf y hy]), specWords_nil]
  | w :: v :: ws, h => by
    rw [joinWords_cons2]
    obtain ⟨hne, hnw⟩ := h w (List.mem_cons_self _ _)
    rcases w with _ | ⟨x, t⟩
    · cases hne rfl
    · have hxf : isWs x = false := hnw x (List.mem_cons_self _ _)
      have htf : ∀ y ∈ t, isWs y = false := fun y hy => hnw y (List.mem_cons_of_mem _ hy)
      rw [List.cons_append, specWords_not_ws_cons _ hxf,
        takeWhile_app (' ' :: joinWords (v :: ws)) (fun y hy => by simp [htf y hy])
          (fun y hy => by cases hy; simp [isWs_space]),
        dropWhile_app _ (fun y hy => by simp [htf y hy]),
        dropWhile_head_id (q := fun x => !isWs x) (by
          intro y hy
          cases hy
          simp [isWs_space]),
        specWords_ws_cons _ isWs_space,
        specWords_joinWords (v :: ws) (fun u hu => h u (List.mem_cons_of_mem _ hu))]

theorem joinWords_ne_nil :
    ∀ ws : List (List Char), ws ≠ [] → (∀ w ∈ ws, w ≠ []) → joinWords ws ≠ []
  | [], h, _ => absurd rfl h
  | [w], _, h2 => by
    rw [joinWords_single]
    exact h2 w (List.mem_cons_self _ _)
  | w :: v :: ws, _, h2 => by
    rw [joinWords_cons2]
    rcases w with _ | ⟨x, t⟩
    · exact absurd rfl (h2 [] (List.mem_cons_self _ _))
    · simp

theorem joinWords_chars :
    ∀ ws : List (List Char), (∀ w ∈ ws, ∀ c ∈ w, isWs c = false) →
      ∀ c ∈ joinWords ws, isWs c = true → c = ' '
  | [], _ => by
    intro c hc
    rw [joinWords_nil] at hc
    cases hc
  | [w], h => by
    intro c hc hws
    rw [joinWords_single] at hc
    rw [h w (List.mem_cons_self _ _) c hc] at hws
    cases hws
  | w :: v :: ws, h => by
    intro c hc hws
    rw [joinWords_cons2] at hc
    rcases List.mem_append.mp hc with hc1 | hc2
    · rw [h w (List.mem_cons_self _ _) c hc1] at hws
      cases hws
    · rcases List.mem_cons.mp hc2 with rfl | hc3
      · rfl
      · exact joinWords_chars (v :: ws) (fun u hu => h u (List.mem_cons_of_mem _ hu)) c hc3 hws

theorem head?_app {v : List Char} (J : List Char) (h : v ≠ []) :
    (v ++ J).head? = v.head? := by
  cases v with
  | nil => exact absurd rfl h
  | cons x xs => rfl

theorem joinWords_head_nonws :
    ∀ ws : List (List Char), (∀ w ∈ ws, w ≠ [] ∧ ∀ c ∈ w, isWs c = false) →
      ∀ c, (joinWords ws).head? = some c → isWs c = false
  | [], _ => by
    intro c hc
    rw [joinWords_nil] at hc
    cases hc
  | [w], h => by
    intro c hc
    rw [joinWords_single] at hc
    obtain ⟨hne, hnw⟩ := h w (List.mem_cons_self _ _)
    rcases w with _ | ⟨x, t⟩
    · cases hc
    · obtain rfl : x = c := by simpa using hc
      exact hnw x (List.mem_cons_self _ _)
  | w :: v :: ws, h => by
    intro c hc
    rw [joinWords_cons2] at hc
    obtain ⟨hne, hnw⟩ := h w (List.mem_cons_self _ _)
    rw [head?_app _ hne] at hc
    rcases w with _ | ⟨x, t⟩
    · cases hc
    · obtain rfl : x = c := by simpa using hc
      exact hnw x (List.mem_cons_self _ _)

theorem joinWords_last_nonws :
    ∀ ws : List (List Char), (∀ w ∈ ws, w ≠ [] ∧ ∀ c ∈ w, isWs c = false) →
      ∀ c, (joinWords ws).getLast? = some c → isWs c = false
  | [], _ => by
    intro c hc
    rw [joinWords_nil] at hc
    cases hc
  | [w], h => by
    intro c hc
    rw [joinWords_single] at hc
    obtain ⟨hne, hnw⟩ := h w (List.mem_cons_self _ _)
    exact hnw c (List.mem_of_mem_getLast? hc)
  | w :: v :: ws, h => by
    intro c hc
    rw [joinWords_cons2, List.getLast?_append_cons] at hc
    have hJ : joinWords (v :: ws) ≠ [] :=
      joinWords_ne_nil (v :: ws) (by simp)
        (fun u hu => (h u (List.mem_cons_of_mem _ hu)).1)
    rcases hJv : joinWords (v :: ws) with _ | ⟨y, ys⟩
    · exact absurd hJv hJ
    · rw [hJv, List.getLast?_cons_cons] at hc
      rw [← hJv] at hc
      exact joinWords_last_nonws (v :: ws)
        (fun u hu => h u (List.mem_cons_of_mem _ hu)) c hc

theorem chain_of_nonws {w : List Char} (h : ∀ c ∈ w, isWs c = false) :
    List.Chain' (fun a b => ¬(isWs a = true ∧ isWs b = true)) w := by
  induction w with
  | nil => simp
  | cons x xs ih =>
    rw [List.chain'_cons']
    refine ⟨?_, ih (fun y hy => h y (List.mem_cons_of_mem _ hy))⟩
    rintro y hy ⟨hx, -⟩
    rw [h x (List.mem_cons_self _ _)] at hx
    cases hx

theorem joinWords_chain :
    ∀ ws : List (List Char), (∀ w ∈ ws, w ≠ [] ∧ ∀ c ∈ w, isWs c = false) →
      List.Chain' (fun a b => ¬(isWs a = true ∧ isWs b = true)) (joinWords ws)
  | [], _ => by
    rw [joinWords_nil]
    simp
  | [w], h => by
    rw [joinWords_single]
    exact chain_of_nonws (h w (List.mem_cons_self _ _)).2
  | w :: v :: ws, h => by
    rw [joinWords_cons2, List.chain'_append]
    obtain ⟨hne, hnw⟩ := h w (List.mem_cons_self _ _)
    refine ⟨chain_of_nonws hnw, ?_, ?_⟩
    · rw [List.chain'_cons']
      refine ⟨?_, joinWords_chain (v :: ws) (fun u hu => h u (List.mem_cons_of_mem _ hu))⟩
      rintro y hy ⟨-, hy2⟩
      rw [joinWords_head_nonws (v :: ws)
        (fun u hu => h u (List.mem_cons_of_mem _ hu)) y hy] at hy2
      cases hy2
    · rintro x hx y hy ⟨hx2, -⟩
      rw [hnw x (List.mem_of_mem_getLast? hx)] at hx2
      cases hx2

/-- Claim C4: canonicalization is idempotent: for every string `s`,
`normalizeText (normalizeText s) = normalizeText s`. -/
theorem C4_normalizeText_idempotent (s : String) :
    normalizeText (normalizeText s) = normalizeText s := by
  apply String.ext
  rw [normalizeText_data (normalizeText s), normalizeText_data s,
    specWords_joinWords _ (specWords_valid s.data)]

/-- Claim C9: `normalizeText` is a pure total function that equals the
spec-described canonicalization (each maximal run of whitespace characters,
including the non-breaking space, replaced by exactly one ordinary space,
with leading/trailing whitespace trimmed); consequently its output contains
no newline, no non-breaking space, no two adjacent spaces, and no leading or
trailing whitespace. -/
theorem C9_normalizeText_canonical (s : String) :
    normalizeText s = canonicalizeSpec s ∧
    (∀ c ∈ (normalizeText s).data, isWs c = true → c = ' ') ∧
    '\n' ∉ (normalizeText s).data ∧
    '\u00A0' ∉ (normalizeText s).data ∧
    List.Chain' (fun a b => ¬(a = ' ' ∧ b = ' ')) (normalizeText s).data ∧
    (∀ c, (normalizeText s).data.head? = some c → isWs c = false) ∧
    (∀ c, (normalizeText s).data.getLast? = some c → isWs c = false) := by
  have hv := specWords_valid s.data
  have hdata := normalizeText_data s
  refine ⟨?_, ?_, ?_, ?_, ?_, ?_, ?_⟩
  · apply String.ext
    rw [hdata, canonicalizeSpec_data]
  · rw [hdata]
    exact joinWords_chars _ (fun w hw => (hv w hw).2)
  · intro hmem
    rw [hdata] at hmem
    exact absurd (joinWords_chars _ (fun w hw => (hv w hw).2) _ hmem isWs_newline)
      (by decide)
  · intro hmem
    rw [hdata] at hmem
    exact absurd (joinWords_chars _ (fun w hw => (hv w hw).2) _ hmem isWs_nbsp)
      nbsp_ne_space
  · rw [hdata]
    exact (joinWords_chain _ hv).imp
      (fun a b hab ⟨ha, hb⟩ => hab ⟨ha ▸ isWs_space, hb ▸ isWs_space⟩)
  · rw [hdata]
    exact joinWords_head_nonws _ hv
  · rw [hdata]
    exact joinWords_last_nonws _ hv

/-! ### SHA-256 (`crypto.createHash("sha256")`) over UTF-8 bytes, on `Nat` -/

/-- UTF-8 encoding of one code point, as byte values. -/
def utf8Bytes (c : Char) : List Nat :=
  let n := c.toNat
  if n < 0x80 then [n]
  else if n < 0x800 then
    [0xC0 ||| (n >>> 6), 0x80 ||| (n &&& 0x3F)]
  else if n < 0x10000 then
    [0xE0 ||| (n >>> 12), 0x80 ||| ((n >>> 6) &&& 0x3F), 0x80 ||| (n &&& 0x3F)]
  else
    [0xF0 ||| (n >>> 18), 0x80 ||| ((n >>> 12) &&& 0x3F),
     0x80 ||| ((n >>> 6) &&& 0x3F), 0x80 ||| (n &&& 0x3F)]

/-- UTF-8 bytes of a string (`Buffer.from(s, "utf-8")`). -/
def strBytes (s : String) : List Nat :=
  (s.data.map utf8Bytes).flatten

def add32 (a b : Nat) : Nat := (a + b) % 4294967296

def rotr32 (n x : Nat) : Nat :=
  ((x >>> n) ||| (x <<< (32 - n))) % 4294967296

def shaCh (x y z : Nat) : Nat := (x &&& y) ^^^ ((x ^^^ 0xFFFFFFFF) &&& z)

def shaMaj (x y z : Nat) : Nat := (x &&& y) ^^^ (x &&& z) ^^^ (y &&& z)

def bigSigma0 (x : Nat) : Nat := rotr32 2 x ^^^ rotr32 13 x ^^^ rotr32 22 x

def bigSigma1 (x : Nat) : Nat := rotr32 6 x ^^^ rotr32 11 x ^^^ rotr32 25 x

def smallSigma0 (x : Nat) : Nat := rotr32 7 x ^^^ rotr32 18 x ^^^ (x >>> 3)

def smallSigma1 (x : Nat) : Nat := rotr32 17 x ^^^ rotr32 19 x ^^^ (x >>> 10)

/-- The 64 SHA-256 round constants. -/
def shaK : List Nat :=
  [1116352408, 1899447441, 3049323471, 3921009573,
   961987163, 1508970993, 2453635748, 2870763221,
   3624381080, 310598401, 607225278, 1426881987,
   1925078388, 2162078206, 2614888103, 3248222580,
   3835390401, 4022224774, 264347078, 604807628,
   770255983, 1249150122, 1555081692, 1996064986,
   2554220882, 2821834349, 2952996808, 3210313671,
   3336571891, 3584528711, 113926993, 338241895,
   666307205, 773529912, 1294757372, 1396182291,
   1695183700, 1986661051, 2177026350, 2456956037,
   2730485921, 2820302411, 3259730800, 3345764771,
   3516065817, 3600352804, 4094571909, 275423344,
   430227734, 506948616, 659060556, 883997877,
   958139571, 1322822218, 1537002063, 1747873779,
   1955562222, 2024104815, 2227730452, 2361852424,
   2428436474, 2756734187, 3204031479, 3329325298]

/-- The SHA-256 initial hash value. -/
def shaH0 : List Nat :=
  [1779033703, 3144134277, 1013904242, 2773480762,
   1359893119, 2600822924, 528734635, 1541459225]

/-- Big-endian 8-byte encoding of a 64-bit value. -/
def be64 (n : Nat) : List Nat :=
  [(n >>> 56) % 256, (n >>> 48) % 256, (n >>> 40) % 256, (n >>> 32) % 256,
   (n >>> 24) % 256, (n >>> 16) % 256, (n >>> 8) % 256, n % 256]

/-- SHA-256 padding: append `0x80`, zero bytes to 56 mod 64, then the
bit length as a big-endian 64-bit integer. -/
def padMsg (msg : List Nat) : List Nat :=
  msg ++ 0x80 :: List.replicate ((119 - msg.length % 64) % 64) 0 ++ be64 (8 * msg.length)

/-- Big-endian grouping of bytes into 32-bit words. -/
def toWords : List Nat → List Nat
  | b0 :: b1 :: b2 :: b3 :: rest =>
    (((b0 * 256 + b1) * 256 + b2) * 256 + b3) :: toWords rest
  | _ => []

/-- Extend the 16 chunk words to the 64-entry message schedule. -/
def extendLoop : Nat → List Nat → List Nat
  | 0, w => w
  | k + 1, w =>
    let i := w.length
    let nw := add32 (add32 (w.getD (i - 16) 0) (smallSigma0 (w.getD (i - 15) 0)))
      (add32 (w.getD (i - 7) 0) (smallSigma1 (w.getD (i - 2) 0)))
    extendLoop k (w ++ [nw])

/-- One SHA-256 compression round on the 8-word state. -/
def shaRound (st : List Nat) (k w : Nat) : List Nat :=
  let a := st.getD 0 0
  let b := st.getD 1 0
  let c := st.getD 2 0
  let d := st.getD 3 0
  let e := st.getD 4 0
  let f := st.getD 5 0
  let g := st.getD 6 0
  let h := st.getD 7 0
  let t1 := add32 (add32 h (bigSigma1 e)) (add32 (shaCh e f g) (add32 k w))
  let t2 := add32 (bigSigma0 a) (shaMaj a b c)
  [add32 t1 t2, a, b, c, add32 d t1, e, f, g]

/-- Compress one 64-byte chunk into the running hash value. -/
def compressChunk (hs : List Nat) (chunk : List Nat) : List Nat :=
  let w := extendLoop 48 (toWords chunk)
  let final := (List.range 64).foldl
    (fun st t => shaRound st (shaK.getD t 0) (w.getD t 0)) hs
  List.zipWith add32 hs final

/-- Split a byte list into 64-byte chunks. -/
def chunks64 (l : List Nat) : List (List Nat) :=
  if l = [] then [] else l.take 64 :: chunks64 (l.drop 64)
termination_by l.length
decreasing_by
  rename_i h
  have hlen : 0 < l.length := List.length_pos.mpr h
  rw [List.length_drop]
  omega

/-- The eight 32-bit words of the SHA-256 digest of a byte sequence. -/
def sha256Words (msg : List Nat) : List Nat :=
  (chunks64 (padMsg msg)).foldl compressChunk shaH0

def hexChar (n : Nat) : Char :=
  "0123456789abcdef".data.getD n '0'

/-- Fixed-width lowercase hexadecimal rendering. -/
def toHexFixed : Nat → Nat → List Char
  | 0, _ => []
  | k + 1, n => toHexFixed k (n / 16) ++ [hexChar (n % 16)]

/-- `crypto.createHash("sha256").update(s).digest("hex")`:
the SHA-256 digest of the UTF-8 bytes of `s` as 64 lowercase hex digits. -/
def sha256Hex (s : String) : String :=
  String.mk (((sha256Words (strBytes s)).map (toHexFixed 8)).flatten)

/-- `Omit<Course, "hash">` — a course record before its fingerprint is
attached (`src/types.ts`). -/
structure CourseBase where
  id : String
  title : String
  instructor : String
  term : String
  dayPeriod : String
  room : Option String
  updatedAt : Option String
  bodyText : String
  detailUrl : String
deriving DecidableEq, Repr

/-- The `Course` record type of `src/types.ts`. -/
structure Course extends CourseBase where
  hash : String
deriving DecidableEq, Repr

/-- `makeHash` from `src/utils.ts`: the seven content fields are
canonicalized, joined with `"|"`, and digested with SHA-256 in hex. -/
def makeHash (course : CourseBase) : String :=
  let key := String.intercalate "|"
    ([course.title, course.instructor, course.term, course.dayPeriod,
      course.room.getD "", course.updatedAt.getD "", course.bodyText].map normalizeText)
  sha256Hex key

theorem shaRound_length (st : List Nat) (k w : Nat) : (shaRound st k w).length = 8 := rfl

theorem foldl_round_length {β : Type} (f : List Nat → β → List Nat)
    (hf : ∀ s t, (f s t).length = 8) :
    ∀ (l : List β) (st : List Nat), st.length = 8 → (l.foldl f st).length = 8
  | [], _, h => h
  | t :: ts, st, _ => foldl_round_length f hf ts (f st t) (hf st t)

theorem compressChunk_length (hs chunk : List Nat) (h : hs.length = 8) :
    (compressChunk hs chunk).length = 8 := by
  unfold compressChunk
  rw [List.length_zipWith, h,
    foldl_round_length _ (fun s t => shaRound_length s _ _) _ _ h]
  rfl

theorem foldl_compress_length :
    ∀ (cl : List (List Nat)) (hs : List Nat), hs.length = 8 →
      (cl.foldl compressChunk hs).length = 8
  | [], _, h => h
  | c :: cs, hs, h => foldl_compress_length cs _ (compressChunk_length hs c h)

theorem sha256Words_length (msg : List Nat) : (sha256Words msg).length = 8 :=
  foldl_compress_length _ shaH0 rfl

theorem toHexFixed_length : ∀ (k n : Nat), (toHexFixed k n).length = k
  | 0, _ => rfl
  | k + 1, n => by
    rw [toHexFixed, List.length_append, toHexFixed_length k (n / 16)]
    rfl

theorem hexChar_mem (n : Nat) : hexChar n ∈ "0123456789abcdef".data := by
  unfold hexChar
  by_cases h : n < 16
  · interval_cases n <;> decide
  · rw [List.getD_eq_default]
    · decide
    · simpa using Nat.le_of_not_lt h

theorem toHexFixed_mem : ∀ (k n : Nat), ∀ c ∈ toHexFixed k n, c ∈ "0123456789abcdef".data
  | 0, _ => by
    intro c hc
    cases hc
  | k + 1, n => by
    intro c hc
    rw [toHexFixed] at hc
    rcases List.mem_append.mp hc with hc1 | hc2
    · exact toHexFixed_mem k (n / 16) c hc1
    · rcases List.mem_cons.mp hc2 with rfl | hc3
      · exact hexChar_mem _
      · cases hc3

theorem sha256Hex_length (s : String) : (sha256Hex s).length = 64 := by
  show ((sha256Hex s).data).length = 64
  show (((sha256Words (strBytes s)).map (toHexFixed 8)).flatten).length = 64
  rw [List.length_flatten]
  rw [List.map_map]
  have h9 : (List.map (List.length ∘ toHexFixed 8) (sha256Words (strBytes s))).sum
      = (List.map (fun _ => (8 : Nat)) (sha256Words (strBytes s))).sum := by
    exact congrArg List.sum (List.map_congr_left (fun w _ => toHexFixed_length 8 w))
  rw [h9]
  have h10 : (List.map (fun _ => (8 : Nat)) (sha256Words (strBytes s))).sum
      = 8 * (sha256Words (strBytes s)).length := by
    induction sha256Words (strBytes s) with
    | nil => rfl
    | cons x xs ih =>
      rw [List.map_cons, List.sum_cons, ih, List.length_cons]
      ring
  rw [h10, sha256Words_length]

theorem sha256Hex_chars (s : String) :
    ∀ c ∈ (sha256Hex s).data, c ∈ "0123456789abcdef".data := by
  intro c hc
  have hc2 : c ∈ ((sha256Words (strBytes s)).map (toHexFixed 8)).flatten := hc
  rcases List.mem_flatten.mp hc2 with ⟨l, hl, hcl⟩
  rcases List.mem_map.mp hl with ⟨w, _, rfl⟩
  exact toHexFixed_mem 8 w c hcl

/-- Claim C3: `makeHash` joins the canonicalized values of title, instructor,
term, schedule, room (empty string if absent), last-updated label (empty
string if absent) and body text with the pipe character and applies SHA-256
rendered as a lowercase hex string (64 lowercase hexadecimal characters);
any two records whose seven canonicalized field values are pairwise equal
receive identical digests. -/
theorem C3_makeHash_fingerprint (course c1 c2 : CourseBase)
    (h1 : normalizeText c1.title = normalizeText c2.title)
    (h2 : normalizeText c1.instructor = normalizeText c2.instructor)
    (h3 : normalizeText c1.term = normalizeText c2.term)
    (h4 : normalizeText c1.dayPeriod = normalizeText c2.dayPeriod)
    (h5 : normalizeText (c1.room.getD "") = normalizeText (c2.room.getD ""))
    (h6 : normalizeText (c1.updatedAt.getD "") = normalizeText (c2.updatedAt.getD ""))
    (h7 : normalizeText c1.bodyText = normalizeText c2.bodyText) :
    makeHash course = sha256Hex
      (normalizeText course.title ++ "|" ++ normalizeText course.instructor ++ "|" ++
       normalizeText course.term ++ "|" ++ normalizeText course.dayPeriod ++ "|" ++
       normalizeText (course.room.getD "") ++ "|" ++
       normalizeText (course.updatedAt.getD "") ++ "|" ++
       normalizeText course.bodyText) ∧
    (makeHash course).length = 64 ∧
    (∀ c ∈ (makeHash course).data, c ∈ "0123456789abcdef".data) ∧
    makeHash c1 = makeHash c2 := by
  refine ⟨?_, sha256Hex_length _, sha256Hex_chars _, ?_⟩
  · show sha256Hex (String.intercalate "|"
      ([course.title, course.instructor, course.term, course.dayPeriod,
        course.room.getD "", course.updatedAt.getD "", course.bodyText].map normalizeText)) = _
    congr 1
  · show sha256Hex (String.intercalate "|"
      ([c1.title, c1.instructor, c1.term, c1.dayPeriod,
        c1.room.getD "", c1.updatedAt.getD "", c1.bodyText].map normalizeText)) = _
    simp only [List.map_cons, List.map_nil]
    rw [h1, h2, h3, h4, h5, h6, h7]
    rfl

/-- Concrete record used by the C3 witness. -/
def courseW : CourseBase :=
  ⟨"C001", "Algorithms", "Tanaka", "前期", "月1", some "101", none, "body text", "http://example.org/?id=C001"⟩

/-- The same seven content fields as `courseW` but a different id and
detail URL. -/
def courseW2 : CourseBase :=
  ⟨"C002", "Algorithms", "Tanaka", "前期", "月1", some "101", none, "body text", "http://example.org/?id=C002"⟩

/-- Witness for C3: the hypotheses hold at `courseW`/`courseW2` and the
conclusion follows by applying the theorem there. -/
theorem C3_makeHash_fingerprint_witness :
    (normalizeText courseW.title = normalizeText courseW2.title) ∧
    ((makeHash courseW).length = 64 ∧ makeHash courseW = makeHash courseW2) :=
  ⟨rfl,
    (C3_makeHash_fingerprint courseW courseW courseW2 rfl rfl rfl rfl rfl rfl rfl).2.1,
    (C3_makeHash_fingerprint courseW courseW courseW2 rfl rfl rfl rfl rfl rfl rfl).2.2.2⟩

/-! ### Snapshots (`Map<string, Course>`) and the reconciler -/

/-- A `Map<string, Course>` as its entry list in insertion order. -/
abbrev Snapshot : Type := List (String × Course)

/-- `Map.prototype.get`: the value of the entry with the given key. -/
def sget : Snapshot → String → Option Course
  | [], _ => none
  | p :: rest, k => if p.1 = k then some p.2 else sget rest k

/-- A genuine `Map` never holds two entries with the same key. -/
def NodupKeys (m : Snapshot) : Prop := (m.map Prod.fst).Nodup

instance (m : Snapshot) : Decidable (NodupKeys m) := by
  unfold NodupKeys
  infer_instance

/-- The `DiffResult` type of `src/types.ts`; a `changed` entry carries
`(before, after)`. -/
structure DiffResult where
  added : List Course
  changed : List (Course × Course)
  removed : List Course
deriving DecidableEq, Repr

/-- The `added` pushes of `compareCourses`, in `curr` iteration order. -/
def addedOf (prev curr : Snapshot) : List Course :=
  curr.filterMap (fun p => match sget prev p.1 with
    | none => some p.2
    | some _ => none)

/-- The `changed` pushes of `compareCourses`, in `curr` iteration order. -/
def changedOf (prev curr : Snapshot) : List (Course × Course) :=
  curr.filterMap (fun p => match sget prev p.1 with
    | some q => if q.hash = p.2.hash then none else some (q, p.2)
    | none => none)

/-- The `removed` pushes of `compareCourses`, in `prev` iteration order. -/
def removedOf (prev curr : Snapshot) : List Course :=
  prev.filterMap (fun q => match sget curr q.1 with
    | some _ => none
    | none => some q.2)

/-- `compareCourses` from `src/utils.ts`: one pass over `curr` classifying
into `added`/`changed`, then one pass over `prev` collecting `removed`. -/
def compareCourses (prev curr : Snapshot) : DiffResult :=
  ⟨addedOf prev curr, changedOf prev curr, removedOf prev curr⟩

/-- The current records that produce no diff entry (present in `prev` with
an equal fingerprint). -/
def unchangedOf (prev curr : Snapshot) : List Course :=
  curr.filterMap (fun p => match sget prev p.1 with
    | some q => if q.hash = p.2.hash then some p.2 else none
    | none => none)

theorem mem_addedOf {prev curr : Snapshot} {c : Course} :
    c ∈ addedOf prev curr ↔ ∃ k, (k, c) ∈ curr ∧ sget prev k = none := by
  constructor
  · intro hc
    rcases List.mem_filterMap.mp hc with ⟨⟨k, v⟩, hmem, heq⟩
    rcases hs : sget prev k with _ | q
    · rw [hs] at heq
      simp only [Option.some.injEq] at heq
      rw [← heq]
      exact ⟨k, hmem, hs⟩
    · rw [hs] at heq
      cases heq
  · rintro ⟨k, hmem, hs⟩
    exact List.mem_filterMap.mpr ⟨(k, c), hmem, by rw [hs]⟩

theorem mem_changedOf {prev curr : Snapshot} {b a : Course} :
    (b, a) ∈ changedOf prev curr ↔
      ∃ k, (k, a) ∈ curr ∧ sget prev k = some b ∧ b.hash ≠ a.hash := by
  constructor
  · intro hc
    rcases List.mem_filterMap.mp hc with ⟨⟨k, v⟩, hmem, heq⟩
    rcases hs : sget prev k with _ | q
    · rw [hs] at heq
      cases heq
    · rw [hs] at heq
      dsimp only at heq
      by_cases hh : q.hash = v.hash
      · rw [if_pos hh] at heq
        cases heq
      · rw [if_neg hh] at heq
        simp only [Option.some.injEq, Prod.mk.injEq] at heq
        obtain ⟨rfl, rfl⟩ := heq
        exact ⟨k, hmem, hs, hh⟩
  · rintro ⟨k, hmem, hs, hh⟩
    refine List.mem_filterMap.mpr ⟨(k, a), hmem, ?_⟩
    rw [hs]
    dsimp only
    rw [if_neg hh]

theorem mem_removedOf {prev curr : Snapshot} {p : Course} :
    p ∈ removedOf prev curr ↔ ∃ k, (k, p) ∈ prev ∧ sget curr k = none := by
  constructor
  · intro hc
    rcases List.mem_filterMap.mp hc with ⟨⟨k, v⟩, hmem, heq⟩
    rcases hs : sget curr k with _ | q
    · rw [hs] at heq
      simp only [Option.some.injEq] at heq
      rw [← heq]
      exact ⟨k, hmem, hs⟩
    · rw [hs] at heq
      cases heq
  · rintro ⟨k, hmem, hs⟩
    exact List.mem_filterMap.mpr ⟨(k, p), hmem, by rw [hs]⟩

/-- Claim C1: `compareCourses` classifies exactly as specified
holds precisely the current records whose id is absent from `prev`,
`changed` precisely the pairs `(previous[id], current[id])` with differing
fingerprints, `removed` precisely the previous records whose id is absent
from `curr`, and nothing else (ids present in both with equal fingerprint
contribute no diff entry). -/
theorem C1_compareCourses_classification (prev curr : Snapshot) :
    (∀ c, c ∈ (compareCourses prev curr).added ↔
      ∃ k, (k, c) ∈ curr ∧ sget prev k = none) ∧
    (∀ b a, (b, a) ∈ (compareCourses prev curr).changed ↔
      ∃ k, (k, a) ∈ curr ∧ sget prev k = some b ∧ b.hash ≠ a.hash) ∧
    (∀ p, p ∈ (compareCourses prev curr).removed ↔
      ∃ k, (k, p) ∈ prev ∧ sget curr k = none) :=
  ⟨fun _ => mem_addedOf, fun _ _ => mem_changedOf, fun _ => mem_removedOf⟩

theorem sget_nil (k : String) : sget [] k = none := rfl

theorem sget_cons (p : String × Course) (rest : Snapshot) (k : String) :
    sget (p :: rest) k = if p.1 = k then some p.2 else sget rest k := rfl

theorem sget_eq_none_of_keys : ∀ {m : Snapshot} {k : String},
    (∀ p ∈ m, p.1 ≠ k) → sget m k = none
  | [], _, _ => rfl
  | p :: rest, k, h => by
    rw [sget_cons, if_neg (h p (List.mem_cons_self _ _)),
      sget_eq_none_of_keys (fun q hq => h q (List.mem_cons_of_mem _ hq))]

theorem sget_mem : ∀ {m : Snapshot} {k : String} {v : Course},
    sget m k = some v → (k, v) ∈ m
  | [], _, _, h => by cases h
  | p :: rest, k, v, h => by
    rw [sget_cons] at h
    by_cases h1 : p.1 = k
    · rw [if_pos h1] at h
      simp only [Option.some.injEq] at h
      have hp : p = (k, v) := Prod.ext h1 h
      rw [← hp]
      exact List.mem_cons_self _ _
    · rw [if_neg h1] at h
      exact List.mem_cons_of_mem _ (sget_mem h)

theorem sget_isSome_of_mem : ∀ {m : Snapshot} {k : String} {v : Course},
    (k, v) ∈ m → (sget m k).isSome = true
  | [], _, _, h => by cases h
  | p :: rest, k, v, h => by
    rw [sget_cons]
    by_cases h1 : p.1 = k
    · rw [if_pos h1]
      rfl
    · rw [if_neg h1]
      rcases List.mem_cons.mp h with rfl | h2
      · exact absurd rfl h1
      · exact sget_isSome_of_mem h2

theorem keys_sget {m : Snapshot} {k : String} (h : k ∈ m.map Prod.fst) :
    (sget m k).isSome = true := by
  rcases List.mem_map.mp h with ⟨p, hp, hfst⟩
  exact sget_isSome_of_mem (show (k, p.2) ∈ m by rw [← hfst]; exact hp)

theorem sget_of_mem_nodup : ∀ {m : Snapshot} {k : String} {v : Course},
    NodupKeys m → (k, v) ∈ m → sget m k = some v
  | [], _, _, _, h => by cases h
  | p :: rest, k, v, hm, h => by
    have hm2 := hm
    unfold NodupKeys at hm2
    rw [List.map_cons, List.nodup_cons] at hm2
    obtain ⟨hp1, hp2⟩ := hm2
    rcases List.mem_cons.mp h with rfl | h2
    · rw [sget_cons, if_pos rfl]
    · rw [sget_cons]
      by_cases h1 : p.1 = k
      · exfalso
        apply hp1
        rw [h1]
        exact List.mem_map.mpr ⟨(k, v), h2, rfl⟩
      · rw [if_neg h1]
        exact sget_of_mem_nodup hp2 h2

/-- Entries of `A` whose key resolves in `B` to a value related by `ψ`. -/
def matchList (ψ : Course → Course → Prop) [DecidableRel ψ] (A B : Snapshot) :
    List (Course × Course) :=
  A.filterMap (fun q => match sget B q.1 with
    | some c => if ψ q.2 c then some (q.2, c) else none
    | none => none)

/-- The same matching read off from the `B` side. -/
def matchListR (ψ : Course → Course → Prop) [DecidableRel ψ] (A B : Snapshot) :
    List (Course × Course) :=
  B.filterMap (fun p => match sget A p.1 with
    | some q => if ψ q p.2 then some (q, p.2) else none
    | none => none)

theorem count_curr (prev curr : Snapshot) :
    (addedOf prev curr).length + (changedOf prev curr).length
      + (unchangedOf prev curr).length = curr.length := by
  induction curr with
  | nil => rfl
  | cons p t ih =>
    simp only [addedOf, changedOf, unchangedOf, List.filterMap_cons] at ih ⊢
    rcases hs : sget prev p.1 with _ | q
    · simp only [hs, List.length_cons]
      omega
    · by_cases hh : q.hash = p.2.hash <;>
        simp only [hs, hh, if_pos, if_neg, ite_true, ite_false, List.length_cons,
          not_false_eq_true] <;>
        omega

theorem count_prev (prev curr : Snapshot) :
    (removedOf prev curr).length
      + (matchList (fun a c => a.hash ≠ c.hash) prev curr).length
      + (matchList (fun a c => a.hash = c.hash) prev curr).length = prev.length := by
  induction prev with
  | nil => rfl
  | cons q t ih =>
    simp only [removedOf, matchList, List.filterMap_cons] at ih ⊢
    rcases hs : sget curr q.1 with _ | c
    · simp only [hs, List.length_cons]
      omega
    · by_cases hh : q.2.hash = c.hash
      · simp only [hs, if_neg (not_not_intro hh), if_pos hh, List.length_cons]
        omega
      · simp only [hs, if_pos hh, if_neg hh, List.length_cons]
        omega

theorem filterMap_congr_mem {α β : Type} (f g : α → Option β) :
    ∀ l : List α, (∀ a ∈ l, f a = g a) → l.filterMap f = l.filterMap g
  | [], _ => rfl
  | a :: t, h => by
    rw [List.filterMap_cons, List.filterMap_cons, h a (List.mem_cons_self _ _),
      filterMap_congr_mem f g t (fun x hx => h x (List.mem_cons_of_mem _ hx))]

theorem filterMap_length_congr {α β γ : Type} (f : α → Option β) (g : α → Option γ) :
    ∀ l : List α, (∀ a ∈ l, (f a).isSome = (g a).isSome) →
      (l.filterMap f).length = (l.filterMap g).length
  | [], _ => rfl
  | a :: t, h => by
    rw [List.filterMap_cons, List.filterMap_cons]
    have ha := h a (List.mem_cons_self _ _)
    have ht := filterMap_length_congr f g t (fun x hx => h x (List.mem_cons_of_mem _ hx))
    rcases hf : f a with _ | b
    · rw [hf] at ha
      rcases hg : g a with _ | c
      · exact ht
      · rw [hg] at ha
        cases ha
    · rw [hf] at ha
      rcases hg : g a with _ | c
      · rw [hg] at ha
        cases ha
      · rw [List.length_cons, List.length_cons, ht]

/-- 1 if the option is filled, else 0. -/
def optCount {β : Type} (o : Option β) : Nat :=
  match o with
  | some _ => 1
  | none => 0

theorem optCount_none {β : Type} : optCount (none : Option β) = 0 := rfl

theorem optCount_some {β : Type} (b : β) : optCount (some b) = 1 := rfl

theorem filterMap_cons_length {α β : Type} (f : α → Option β) (a : α) (l : List α) :
    (List.filterMap f (a :: l)).length = optCount (f a) + (List.filterMap f l).length := by
  rw [List.filterMap_cons]
  rcases f a with _ | b
  · simp [optCount]
  · simp [optCount]
    omega

/-- 1 when the optional record exists and is `ψ`-related to `q0`. -/
def hitCount (ψ : Course → Course → Prop) [DecidableRel ψ] (q0 : Course)
    (o : Option Course) : Nat :=
  match o with
  | some c => if ψ q0 c then 1 else 0
  | none => 0

theorem matchListR_nil_left (ψ : Course → Course → Prop) [DecidableRel ψ] :
    ∀ B : Snapshot, matchListR ψ [] B = []
  | [] => rfl
  | p :: B => by
    have h := matchListR_nil_left ψ B
    simp only [matchListR, List.filterMap_cons, sget_nil] at h ⊢
    exact h

theorem matchListR_cons (ψ : Course → Course → Prop) [DecidableRel ψ]
    (k : String) (q0 : Course) (A : Snapshot) :
    ∀ B : Snapshot, NodupKeys B → (∀ p ∈ A, p.1 ≠ k) →
      (matchListR ψ ((k, q0) :: A) B).length =
        (matchListR ψ A B).length + hitCount ψ q0 (sget B k)
  | [], _, _ => rfl
  | (k1, c) :: B, hB, hA => by
    have hB2 := hB
    unfold NodupKeys at hB2
    rw [List.map_cons, List.nodup_cons] at hB2
    obtain ⟨hk1, hBn⟩ := hB2
    have hrec := matchListR_cons ψ k q0 A B hBn hA
    simp only [matchListR] at hrec ⊢
    rw [filterMap_cons_length, filterMap_cons_length, hrec]
    dsimp only
    by_cases hkk : k1 = k
    · subst hkk
      have hsgA : sget A k1 = none := sget_eq_none_of_keys (fun p hp => hA p hp)
      have hsgB : sget B k1 = none := by
        apply sget_eq_none_of_keys
        intro p hp hcontra
        exact hk1 (List.mem_map.mpr ⟨p, hp, hcontra⟩)
      have hhead1 : sget ((k1, q0) :: A) k1 = some q0 := by
        rw [sget_cons, if_pos rfl]
      have hsB : sget ((k1, c) :: B) k1 = some c := by
        rw [sget_cons, if_pos rfl]
      rw [hhead1, hsB, hsgA, hsgB]
      by_cases hψ : ψ q0 c
      · simp [hitCount, optCount, hψ]
        omega
      · simp [hitCount, optCount, hψ]
    · have hhead : sget ((k, q0) :: A) k1 = sget A k1 := by
        rw [sget_cons]
        exact if_neg (fun hcontra => hkk hcontra.symm)
      have hsB : sget ((k1, c) :: B) k = sget B k := by
        rw [sget_cons, if_neg hkk]
      rw [hhead, hsB]
      omega

theorem matchList_flip (ψ : Course → Course → Prop) [DecidableRel ψ] :
    ∀ A B : Snapshot, NodupKeys A → NodupKeys B →
      (matchList ψ A B).length = (matchListR ψ A B).length
  | [], B, _, _ => by
    rw [matchListR_nil_left]
    rfl
  | (k, q0) :: A, B, hA, hB => by
    have hA2 := hA
    unfold NodupKeys at hA2
    rw [List.map_cons, List.nodup_cons] at hA2
    obtain ⟨hk, hAn⟩ := hA2
    have hkA : ∀ p ∈ A, p.1 ≠ k := by
      intro p hp hcontra
      exact hk (List.mem_map.mpr ⟨p, hp, hcontra⟩)
    rw [matchListR_cons ψ k q0 A B hB hkA, ← matchList_flip ψ A B hAn hB]
    simp only [matchList]
    rw [filterMap_cons_length]
    dsimp only
    rcases hs : sget B k with _ | c
    · simp [hitCount, optCount]
    · by_cases hψ : ψ q0 c
      · simp [hitCount, optCount, hψ]
        omega
      · simp [hitCount, optCount, hψ]

theorem changedOf_len (prev curr : Snapshot) :
    (changedOf prev curr).length
      = (matchListR (fun a c => a.hash ≠ c.hash) prev curr).length := by
  apply filterMap_length_congr
  intro p hp
  rcases hs : sget prev p.1 with _ | q
  · simp [hs]
  · by_cases hh : q.hash = p.2.hash
    · simp [hs, hh]
    · simp [hs, hh]

theorem unchangedOf_len (prev curr : Snapshot) :
    (unchangedOf prev curr).length
      = (matchListR (fun a c => a.hash = c.hash) prev curr).length := by
  apply filterMap_length_congr
  intro p hp
  rcases hs : sget prev p.1 with _ | q
  · simp [hs]
  · by_cases hh : q.hash = p.2.hash
    · simp [hs, hh]
    · simp [hs, hh]

theorem count_prev_nodup (prev curr : Snapshot)
    (hp : NodupKeys prev) (hc : NodupKeys curr) :
    (removedOf prev curr).length + (changedOf prev curr).length
      + (unchangedOf prev curr).length = prev.length := by
  rw [changedOf_len, unchangedOf_len,
    ← matchList_flip (fun a c => a.hash ≠ c.hash) prev curr hp hc,
    ← matchList_flip (fun a c => a.hash = c.hash) prev curr hp hc]
  exact count_prev prev curr

theorem compareCourses_diag {s : Snapshot} (hs : NodupKeys s) :
    compareCourses s s = ⟨[], [], []⟩ := by
  unfold compareCourses
  have hadded : addedOf s s = [] := by
    unfold addedOf
    rw [List.filterMap_eq_nil_iff]
    intro p hp
    rcases hsome : sget s p.1 with _ | q
    · have := sget_isSome_of_mem (show (p.1, p.2) ∈ s from hp)
      rw [hsome] at this
      cases this
    · rfl
  have hchanged : changedOf s s = [] := by
    unfold changedOf
    rw [List.filterMap_eq_nil_iff]
    intro p hp
    have hsome : sget s p.1 = some p.2 := sget_of_mem_nodup hs hp
    rw [hsome]
    dsimp only
    rw [if_pos rfl]
  have hremoved : removedOf s s = [] := by
    unfold removedOf
    rw [List.filterMap_eq_nil_iff]
    intro p hp
    have hsome : sget s p.1 = some p.2 := sget_of_mem_nodup hs hp
    rw [hsome]
  rw [hadded, hchanged, hremoved]

/-- Claim C2: the reconciler partitions the ids — every id of either
snapshot falls in exactly one of added/changed/removed/unchanged, the
counts satisfy `|added| + |changed| + |unchanged| = |curr|` and
`|removed| + |changed| + |unchanged| = |prev|`, and comparing a snapshot
with itself yields an empty diff. -/
theorem C2_reconcile_partition (prev curr s : Snapshot)
    (hp : NodupKeys prev) (hc : NodupKeys curr) (hsn : NodupKeys s) :
    ((compareCourses prev curr).added.length + (compareCourses prev curr).changed.length
        + (unchangedOf prev curr).length = curr.length) ∧
    ((compareCourses prev curr).removed.length + (compareCourses prev curr).changed.length
        + (unchangedOf prev curr).length = prev.length) ∧
    (∀ k, k ∈ prev.map Prod.fst ∨ k ∈ curr.map Prod.fst →
      ((sget prev k = none ∧ (sget curr k).isSome = true) ∨
       (∃ p c, sget prev k = some p ∧ sget curr k = some c ∧ p.hash ≠ c.hash) ∨
       (∃ p c, sget prev k = some p ∧ sget curr k = some c ∧ p.hash = c.hash) ∨
       ((sget prev k).isSome = true ∧ sget curr k = none)) ∧
      ¬((sget prev k = none ∧ (sget curr k).isSome = true) ∧
        (∃ p c, sget prev k = some p ∧ sget curr k = some c ∧ p.hash ≠ c.hash)) ∧
      ¬((sget prev k = none ∧ (sget curr k).isSome = true) ∧
        (∃ p c, sget prev k = some p ∧ sget curr k = some c ∧ p.hash = c.hash)) ∧
      ¬((sget prev k = none ∧ (sget curr k).isSome = true) ∧
        ((sget prev k).isSome = true ∧ sget curr k = none)) ∧
      ¬((∃ p c, sget prev k = some p ∧ sget curr k = some c ∧ p.hash ≠ c.hash) ∧
        (∃ p c, sget prev k = some p ∧ sget curr k = some c ∧ p.hash = c.hash)) ∧
      ¬((∃ p c, sget prev k = some p ∧ sget curr k = some c ∧ p.hash ≠ c.hash) ∧
        ((sget prev k).isSome = true ∧ sget curr k = none)) ∧
      ¬((∃ p c, sget prev k = some p ∧ sget curr k = some c ∧ p.hash = c.hash) ∧
        ((sget prev k).isSome = true ∧ sget curr k = none))) ∧
    compareCourses s s = ⟨[], [], []⟩ := by
  refine ⟨count_curr prev curr, count_prev_nodup prev curr hp hc, ?_,
    compareCourses_diag hsn⟩
  intro k hk
  rcases h1 : sget prev k with _ | p <;> rcases h2 : sget curr k with _ | c
  · exfalso
    rcases hk with hk | hk
    · have hsk := keys_sget hk
      rw [h1] at hsk
      cases hsk
    · have hsk := keys_sget hk
      rw [h2] at hsk
      cases hsk
  · simp
  · simp
  · by_cases hh : p.hash = c.hash <;> simp [hh]

/-- Concrete courses for the snapshot witnesses. -/
def courseA : Course :=
  ⟨⟨"C1", "T1", "I1", "前期", "月1", none, none, "b1", "u1"⟩, "h1"⟩

def courseB : Course :=
  ⟨⟨"C2", "T2", "I2", "後期", "火2", none, none, "b2", "u2"⟩, "h2"⟩

def prevW : Snapshot := [("C1", courseA)]

def currW : Snapshot := [("C1", courseA), ("C2", courseB)]

/-- Witness for C2 at concrete nodup snapshots. -/
theorem C2_reconcile_partition_witness :
    (NodupKeys prevW ∧ NodupKeys currW) ∧
    ((compareCourses prevW currW).added.length + (compareCourses prevW currW).changed.length
        + (unchangedOf prevW currW).length = currW.length ∧
      compareCourses prevW prevW = ⟨[], [], []⟩) :=
  ⟨⟨by decide, by decide⟩,
    (C2_reconcile_partition prevW currW prevW (by decide) (by decide) (by decide)).1,
    (C2_reconcile_partition prevW currW prevW (by decide) (by decide) (by decide)).2.2.2⟩

/-- Claim C10: every `changed` entry pairs the two stored versions of one
id with differing fingerprints, and `added`/`removed` records have ids
absent from the other snapshot. -/
theorem C10_diff_invariants (prev curr : Snapshot)
    (hwp : ∀ p ∈ prev, p.2.id = p.1) (hwc : ∀ p ∈ curr, p.2.id = p.1)
    (hnc : NodupKeys curr) :
    (∀ b a, (b, a) ∈ (compareCourses prev curr).changed →
      b.id = a.id ∧ sget prev b.id = some b ∧ sget curr a.id = some a ∧
        b.hash ≠ a.hash) ∧
    (∀ c ∈ (compareCourses prev curr).added, sget prev c.id = none) ∧
    (∀ p ∈ (compareCourses prev curr).removed, sget curr p.id = none) := by
  refine ⟨?_, ?_, ?_⟩
  · intro b a hba
    rcases mem_changedOf.mp hba with ⟨k, hmem, hsp, hh⟩
    have hbid : b.id = k := hwp (k, b) (sget_mem hsp)
    have haid : a.id = k := hwc (k, a) hmem
    refine ⟨by rw [hbid, haid], ?_, ?_, hh⟩
    · rw [hbid]
      exact hsp
    · rw [haid]
      exact sget_of_mem_nodup hnc hmem
  · intro c hcmem
    rcases mem_addedOf.mp hcmem with ⟨k, hmem, hsp⟩
    have hcid : c.id = k := hwc (k, c) hmem
    rw [hcid]
    exact hsp
  · intro p hpmem
    rcases mem_removedOf.mp hpmem with ⟨k, hmem, hsc⟩
    have hpid : p.id = k := hwp (k, p) hmem
    rw [hpid]
    exact hsc

/-- A version of `courseA` with the same id but a different fingerprint. -/
def courseA2 : Course :=
  ⟨⟨"C1", "T1", "I1", "前期", "月1", none, none, "b1 new", "u1"⟩, "h1x"⟩

def currW2 : Snapshot := [("C1", courseA2)]

/-- Witness for C10 at snapshots holding one changed record. -/
theorem C10_diff_invariants_witness :
    ((∀ p ∈ prevW, p.2.id = p.1) ∧ (∀ p ∈ currW2, p.2.id = p.1) ∧ NodupKeys currW2) ∧
    (∀ b a, (b, a) ∈ (compareCourses prevW currW2).changed →
      b.id = a.id ∧ sget prevW b.id = some b ∧ sget currW2 a.id = some a ∧
        b.hash ≠ a.hash) :=
  ⟨⟨by decide, by decide, by decide⟩,
    (C10_diff_invariants prevW currW2 (by decide) (by decide) (by decide)).1⟩

/-! ### Snapshot persistence (`src/storage.ts`) -/

/-- `Map.prototype.set`: overwrite in place when the key exists, else
append a new entry. -/
def mapSet (m : Snapshot) (k : String) (v : Course) : Snapshot :=
  if m.any (fun p => p.1 == k) then
    m.map (fun p => if p.1 = k then (k, v) else p)
  else m ++ [(k, v)]

/-- `new Map(pairs)`: insert the pairs left to right. -/
def mkMap (pairs : List (String × Course)) : Snapshot :=
  pairs.foldl (fun m p => mapSet m p.1 p.2) []

/-- `loadPrev` from `src/storage.ts`.  The two fallible external steps —
`fs.readFileSync` and `JSON.parse` followed by `arr.map` (which throws on a
non-array value) — are modelled as `Option`-valued inputs; the `catch`
branch returns the empty map. -/
def loadPrev (readFile : Option String)
    (parseCourses : String → Option (List Course)) : Snapshot :=
  match readFile with
  | none => []
  | some raw =>
    match parseCourses raw with
    | none => []
    | some arr => mkMap (arr.map (fun c => (c.id, c)))

/-- `saveCurr` from `src/storage.ts` writes `JSON.stringify(courses)`:
the persisted document is the full record list (runtime JSON
serialization/parsing is modelled as the lossless identity on it). -/
def saveCurr (courses : List Course) : List Course := courses

/-- Loading a successfully read and parsed snapshot document, as in
`loadPrev`: `new Map(arr.map(c => [c.id, c]))`. -/
def loadFromDoc (arr : List Course) : Snapshot :=
  mkMap (arr.map (fun c => (c.id, c)))

/-- Claim C5: snapshot load is total — on a missing file or a failed parse
it returns the empty snapshot, and the two failure modes are
indistinguishable from a first run. -/
theorem C5_loadPrev_total (parseCourses : String → Option (List Course))
    (raw : String) (hfail : parseCourses raw = none) :
    loadPrev none parseCourses = [] ∧
    loadPrev (some raw) parseCourses = [] ∧
    loadPrev (some raw) parseCourses = loadPrev none parseCourses := by
  unfold loadPrev
  dsimp only
  rw [hfail]
  exact ⟨rfl, rfl, rfl⟩

/-- Witness for C5 with a parser that rejects its input. -/
theorem C5_loadPrev_total_witness :
    ((fun _ : String => (none : Option (List Course))) "not json" = none) ∧
    loadPrev (some "not json") (fun _ => none) = [] :=
  ⟨rfl, (C5_loadPrev_total (fun _ => none) "not json" rfl).2.1⟩

theorem mapSet_append {m : Snapshot} {k : String} (v : Course)
    (h : ∀ q ∈ m, q.1 ≠ k) : mapSet m k v = m ++ [(k, v)] := by
  unfold mapSet
  rw [if_neg]
  intro hany
  rcases List.any_eq_true.mp hany with ⟨q, hq, hqk⟩
  exact h q hq (by simpa using hqk)

theorem mkMap_go : ∀ (pairs : List (String × Course)) (acc : Snapshot),
    (∀ p ∈ pairs, ∀ q ∈ acc, q.1 ≠ p.1) → (pairs.map Prod.fst).Nodup →
    pairs.foldl (fun m p => mapSet m p.1 p.2) acc = acc ++ pairs
  | [], acc, _, _ => by simp
  | p :: rest, acc, hdisj, hnd => by
    rw [List.map_cons, List.nodup_cons] at hnd
    obtain ⟨hp1, hp2⟩ := hnd
    rw [List.foldl_cons,
      mapSet_append p.2 (fun q hq => hdisj p (List.mem_cons_self _ _) q hq)]
    have hstep := mkMap_go rest (acc ++ [(p.1, p.2)])
      (by
        intro x hx q hq
        rcases List.mem_append.mp hq with hq1 | hq2
        · exact hdisj x (List.mem_cons_of_mem _ hx) q hq1
        · rcases List.mem_cons.mp hq2 with rfl | hq3
          · intro hcontra
            exact hp1 (by rw [hcontra]; exact List.mem_map.mpr ⟨x, hx, rfl⟩)
          · cases hq3)
      hp2
    rw [hstep, List.append_assoc]
    rfl

/-- Counterexample to C7 as stated: with two records sharing one id, the
loaded snapshot drops the earlier record. -/
theorem C7_roundtrip_counterexample :
    courseA ∈ [courseA, courseA2] ∧
    ("C1", courseA) ∉ loadFromDoc (saveCurr [courseA, courseA2]) ∧
    (loadFromDoc (saveCurr [courseA, courseA2])).length ≠
      [courseA, courseA2].length := by
  refine ⟨List.mem_cons_self _ _, ?_, ?_⟩ <;> decide

/-- Claim C7 (amended): save writes the full record list, and for every
list whose ids are pairwise distinct the loaded snapshot is exactly those
records keyed by their id, every field preserved; with duplicate ids the
later record overwrites the earlier one. -/
theorem C7_roundtrip_nodup (courses : List Course)
    (hnd : (courses.map (fun c => c.id)).Nodup) :
    saveCurr courses = courses ∧
    loadFromDoc (saveCurr courses) = courses.map (fun c => (c.id, c)) := by
  refine ⟨rfl, ?_⟩
  show mkMap (courses.map (fun c => (c.id, c))) = courses.map (fun c => (c.id, c))
  unfold mkMap
  rw [mkMap_go (courses.map (fun c => (c.id, c))) []
    (by intro p hp q hq; cases hq)
    (by rw [List.map_map]; exact hnd)]
  rfl

/-- Witness for the amended C7 at a two-record list with distinct ids. -/
theorem C7_roundtrip_nodup_witness :
    (([courseA, courseB].map (fun c => c.id)).Nodup) ∧
    loadFromDoc (saveCurr [courseA, courseB]) =
      [courseA, courseB].map (fun c => (c.id, c)) :=
  ⟨by decide, (C7_roundtrip_nodup [courseA, courseB] (by decide)).2⟩

/-! ### Id resolution in the fetch pipeline (`src/scrape.ts`) -/

/-- `URLSearchParams.get`: the value of the first parameter with the given
name, `none` when absent. -/
def getParam : List (String × String) → String → Option String
  | [], _ => none
  | p :: rest, name => if p.1 = name then some p.2 else getParam rest name

/-- `idFromUrl` from `src/scrape.ts`:
`try { const u = new URL(item.url); return u.searchParams.get("id") || item.url } catch { return item.url }`.
The external WHATWG URL parse is passed in as the optional parameter list
(`none` models the constructor throwing); `x || item.url` falls through on
both `null` and the empty string. -/
def idFromUrl (urlParams : Option (List (String × String))) (url : String) : String :=
  match urlParams with
  | none => url
  | some ps =>
    match getParam ps "id" with
    | none => url
    | some v => if v = "" then url else v

/-- The final record id in `fetchDetail`: `item.id || idFromUrl`. -/
def resolveId (stubId : String) (urlParams : Option (List (String × String)))
    (url : String) : String :=
  if stubId = "" then idFromUrl urlParams url else stubId

/-- Modelled from the spec: "the stub's id when it is present and
non-empty; otherwise the value of the query parameter named `id` in the
detail locator when the locator parses as a URL carrying that parameter;
otherwise the raw locator string itself (also when URL parsing fails)". -/
def resolveIdSpec (stubId : String) (urlParams : Option (List (String × String)))
    (url : String) : String :=
  if stubId = "" then
    match urlParams with
    | none => url
    | some ps =>
      match getParam ps "id" with
      | none => url
      | some v => v
  else stubId

/-- Counterexample to C8 as stated: when the locator carries an `id`
parameter whose value is the empty string, the code falls back to the raw
locator while the claimed rule would return the empty value. -/
theorem C8_resolveId_counterexample :
    resolveId "" (some [("id", "")]) "http://h/?id=" = "http://h/?id=" ∧
    resolveIdSpec "" (some [("id", "")]) "http://h/?id=" = "" ∧
    resolveId "" (some [("id", "")]) "http://h/?id=" ≠
      resolveIdSpec "" (some [("id", "")]) "http://h/?id=" := by
  refine ⟨?_, ?_, ?_⟩ <;> decide

/-- Claim C8 (amended): the final id is the stub id when non-empty;
otherwise the value of the `id` query parameter when the locator parses as
a URL carrying that parameter with a non-empty value; otherwise the raw
locator string (also when parsing fails, the parameter is absent, or its
value is empty). -/
theorem C8_resolveId_rule (stubId : String)
    (urlParams : Option (List (String × String))) (url : String) :
    (stubId ≠ "" → resolveId stubId urlParams url = stubId) ∧
    (stubId = "" → urlParams = none → resolveId stubId urlParams url = url) ∧
    (stubId = "" → ∀ ps, urlParams = some ps → getParam ps "id" = none →
      resolveId stubId urlParams url = url) ∧
    (stubId = "" → ∀ ps v, urlParams = some ps → getParam ps "id" = some v →
      v ≠ "" → resolveId stubId urlParams url = v) ∧
    (stubId = "" → ∀ ps, urlParams = some ps → getParam ps "id" = some "" →
      resolveId stubId urlParams url = url) := by
  refine ⟨?_, ?_, ?_, ?_, ?_⟩
  · intro h
    unfold resolveId
    rw [if_neg h]
  · rintro rfl rfl
    rfl
  · rintro rfl ps rfl hget
    unfold resolveId idFromUrl
    rw [if_pos rfl]
    dsimp only
    rw [hget]
  · rintro rfl ps v rfl hget hv
    unfold resolveId idFromUrl
    rw [if_pos rfl]
    dsimp only
    rw [hget]
    dsimp only
    rw [if_neg hv]
  · rintro rfl ps rfl hget
    unfold resolveId idFromUrl
    rw [if_pos rfl]
    dsimp only
    rw [hget]
    rfl

/-! ### The bounded worker pool of `src/scrape.ts` -/

/-- Status of one worker of the pool. -/
inductive WStatus where
  | idle
  | busy (idx : Nat)
  | done
deriving DecidableEq, Repr

/-- State of the worker pool: the shared index `i`, each worker's status,
the indices already processed (completion order), and the indices whose
fetch succeeded (`courses.push` order). -/
structure PoolState where
  i : Nat
  workers : List WStatus
  processed : List Nat
  results : List Nat
deriving DecidableEq, Repr

/-- One scheduler step: run worker `w` to its next suspension point.  An
idle worker atomically claims the next index (`const idx = i++` runs with
no interleaving on the single-threaded event loop) or terminates once
`i ≥ queue.length`; a busy worker finishes its `fetchDetail`, pushing a
record exactly when the fetch succeeds — a failure is caught and only
skips that one stub.  A step naming a finished or nonexistent worker does
nothing. -/
def poolStep (n : Nat) (success : Nat → Bool) (s : PoolState) (w : Nat) : PoolState :=
  match s.workers.get? w with
  | some WStatus.idle =>
    if s.i < n then
      ⟨s.i + 1, s.workers.set w (WStatus.busy s.i), s.processed, s.results⟩
    else
      ⟨s.i, s.workers.set w WStatus.done, s.processed, s.results⟩
  | some (WStatus.busy idx) =>
    ⟨s.i, s.workers.set w WStatus.idle, s.processed ++ [idx],
      s.results ++ (if success idx then [idx] else [])⟩
  | _ => s

/-- Run the pool under an arbitrary schedule of worker activations. -/
def runPool (n : Nat) (success : Nat → Bool) (sched : List Nat)
    (s : PoolState) : PoolState :=
  sched.foldl (poolStep n success) s

/-- Initial pool state: `Math.min(MAX_CONCURRENCY, queue.length)` idle
workers, shared index 0, nothing processed. -/
def initPool (n W : Nat) : PoolState :=
  ⟨0, List.replicate (min W n) WStatus.idle, [], []⟩

/-- Every worker has left its loop (`Promise.all` has resolved). -/
def Finished (s : PoolState) : Prop := ∀ st ∈ s.workers, st = WStatus.done

instance (s : PoolState) : Decidable (Finished s) := by
  unfold Finished
  infer_instance

/-- The indices currently being fetched. -/
def busyIdx (ws : List WStatus) : List Nat :=
  ws.filterMap (fun st => match st with
    | WStatus.busy idx => some idx
    | _ => none)

/-- The pool invariant: the shared index never passes `n`; the claimed
indices are exactly `0..i-1`, split between finished and in-flight work;
results are the successfully processed indices in order; and a worker can
only have terminated after the queue was exhausted. -/
structure PoolInv (n : Nat) (success : Nat → Bool) (s : PoolState) : Prop where
  ile : s.i ≤ n
  perm : (s.processed ++ busyIdx s.workers).Perm (List.range s.i)
  res : s.results = s.processed.filter success
  donei : WStatus.done ∈ s.workers → n ≤ s.i

theorem busyIdx_replicate_idle : ∀ m : Nat, busyIdx (List.replicate m WStatus.idle) = []
  | 0 => rfl
  | m + 1 => by
    rw [List.replicate_succ]
    show busyIdx (List.replicate m WStatus.idle) = []
    exact busyIdx_replicate_idle m

theorem poolInv_init (n W : Nat) (success : Nat → Bool) :
    PoolInv n success (initPool n W) := by
  refine ⟨Nat.zero_le n, ?_, rfl, ?_⟩
  · show (([] : List Nat) ++ busyIdx (List.replicate (min W n) WStatus.idle)).Perm (List.range 0)
    rw [busyIdx_replicate_idle, List.range_zero]
    exact List.Perm.refl _
  · intro hmem
    have h := List.eq_of_mem_replicate (show WStatus.done ∈ List.replicate (min W n) WStatus.idle from hmem)
    cases h

theorem busyIdx_cons_busy (j : Nat) (rest : List WStatus) :
    busyIdx (WStatus.busy j :: rest) = j :: busyIdx rest := rfl

theorem busyIdx_cons_idle (rest : List WStatus) :
    busyIdx (WStatus.idle :: rest) = busyIdx rest := rfl

theorem busyIdx_cons_done (rest : List WStatus) :
    busyIdx (WStatus.done :: rest) = busyIdx rest := rfl

theorem busyIdx_set_busy : ∀ (ws : List WStatus) (w i : Nat),
    ws.get? w = some WStatus.idle →
    (busyIdx (ws.set w (WStatus.busy i))).Perm (i :: busyIdx ws)
  | [], _, _, h => by cases h
  | st :: rest, 0, i, h => by
    have hst : st = WStatus.idle := by simpa using h
    subst hst
    rw [List.set_cons_zero, busyIdx_cons_busy, busyIdx_cons_idle]
  | st :: rest, w + 1, i, h => by
    have hrec := busyIdx_set_busy rest w i (by simpa using h)
    rw [List.set_cons_succ]
    cases st with
    | idle =>
      rw [busyIdx_cons_idle, busyIdx_cons_idle]
      exact hrec
    | done =>
      rw [busyIdx_cons_done, busyIdx_cons_done]
      exact hrec
    | busy j =>
      rw [busyIdx_cons_busy, busyIdx_cons_busy]
      exact (hrec.cons j).trans (List.Perm.swap i j _)

theorem busyIdx_set_done : ∀ (ws : List WStatus) (w : Nat),
    ws.get? w = some WStatus.idle →
    busyIdx (ws.set w WStatus.done) = busyIdx ws
  | [], _, h => by cases h
  | st :: rest, 0, h => by
    have hst : st = WStatus.idle := by simpa using h
    subst hst
    rw [List.set_cons_zero, busyIdx_cons_done, busyIdx_cons_idle]
  | st :: rest, w + 1, h => by
    have hrec := busyIdx_set_done rest w (by simpa using h)
    rw [List.set_cons_succ]
    cases st with
    | idle => rw [busyIdx_cons_idle, busyIdx_cons_idle, hrec]
    | done => rw [busyIdx_cons_done, busyIdx_cons_done, hrec]
    | busy j => rw [busyIdx_cons_busy, busyIdx_cons_busy, hrec]

theorem busyIdx_set_idle : ∀ (ws : List WStatus) (w idx : Nat),
    ws.get? w = some (WStatus.busy idx) →
    (busyIdx ws).Perm (idx :: busyIdx (ws.set w WStatus.idle))
  | [], _, _, h => by cases h
  | st :: rest, 0, idx, h => by
    have hst : st = WStatus.busy idx := by simpa using h
    subst hst
    rw [List.set_cons_zero, busyIdx_cons_busy, busyIdx_cons_idle]
  | st :: rest, w + 1, idx, h => by
    have hrec := busyIdx_set_idle rest w idx (by simpa using h)
    rw [List.set_cons_succ]
    cases st with
    | idle =>
      rw [busyIdx_cons_idle, busyIdx_cons_idle]
      exact hrec
    | done =>
      rw [busyIdx_cons_done, busyIdx_cons_done]
      exact hrec
    | busy j =>
      rw [busyIdx_cons_busy, busyIdx_cons_busy]
      exact (hrec.cons j).trans (List.Perm.swap idx j _)

theorem poolInv_step (n : Nat) (success : Nat → Bool) (s : PoolState) (w : Nat)
    (h : PoolInv n success s) : PoolInv n success (poolStep n success s w) := by
  obtain ⟨hile, hperm, hres, hdonei⟩ := h
  unfold poolStep
  rcases hw : s.workers.get? w with _ | st
  · exact ⟨hile, hperm, hres, hdonei⟩
  · cases st with
    | idle =>
      by_cases hi : s.i < n
      · rw [if_pos hi]
        refine ⟨hi, ?_, hres, ?_⟩
        · show (s.processed ++ busyIdx (s.workers.set w (WStatus.busy s.i))).Perm
            (List.range (s.i + 1))
          have h1 := busyIdx_set_busy s.workers w s.i hw
          refine ((List.Perm.append_left s.processed h1).trans ?_)
          refine List.perm_middle.trans ?_
          rw [List.range_succ]
          exact (hperm.cons s.i).trans (List.perm_append_singleton s.i _).symm
        · intro hmem
          rcases List.mem_or_eq_of_mem_set hmem with hmem2 | heq
          · exact Nat.le_succ_of_le (hdonei hmem2)
          · cases heq
      · rw [if_neg hi]
        have hni : n ≤ s.i := Nat.le_of_not_lt hi
        refine ⟨hile, ?_, hres, fun _ => hni⟩
        show (s.processed ++ busyIdx (s.workers.set w WStatus.done)).Perm (List.range s.i)
        rw [busyIdx_set_done s.workers w hw]
        exact hperm
    | busy idx =>
      refine ⟨hile, ?_, ?_, ?_⟩
      · show ((s.processed ++ [idx]) ++ busyIdx (s.workers.set w WStatus.idle)).Perm
          (List.range s.i)
        have h1 := busyIdx_set_idle s.workers w idx hw
        rw [List.append_assoc]
        exact (List.Perm.append_left s.processed h1.symm).trans hperm
      · show s.results ++ (if success idx then [idx] else [])
          = (s.processed ++ [idx]).filter success
        rw [List.filter_append, hres, List.filter_singleton]
        cases hsx : success idx <;> rfl
      · intro hmem
        rcases List.mem_or_eq_of_mem_set hmem with hmem2 | heq
        · exact hdonei hmem2
        · cases heq
    | done => exact ⟨hile, hperm, hres, hdonei⟩

theorem poolInv_run (n : Nat) (success : Nat → Bool) :
    ∀ (sched : List Nat) (s : PoolState), PoolInv n success s →
      PoolInv n success (runPool n success sched s)
  | [], _, h => h
  | w :: rest, s, h =>
    poolInv_run n success rest (poolStep n success s w) (poolInv_step n success s w h)

theorem poolStep_workers_length (n : Nat) (success : Nat → Bool)
    (s : PoolState) (w : Nat) :
    (poolStep n success s w).workers.length = s.workers.length := by
  unfold poolStep
  rcases hw : s.workers.get? w with _ | st
  · rfl
  · cases st with
    | idle =>
      by_cases hi : s.i < n
      · rw [if_pos hi]
        exact List.length_set _ _ _
      · rw [if_neg hi]
        exact List.length_set _ _ _
    | busy idx => exact List.length_set _ _ _
    | done => rfl

theorem runPool_workers_length (n : Nat) (success : Nat → Bool) :
    ∀ (sched : List Nat) (s : PoolState),
      (runPool n success sched s).workers.length = s.workers.length
  | [], _ => rfl
  | w :: rest, s => by
    rw [show runPool n success (w :: rest) s
        = runPool n success rest (poolStep n success s w) from rfl,
      runPool_workers_length n success rest (poolStep n success s w),
      poolStep_workers_length]

theorem pool_spec (n W : Nat) (success : Nat → Bool) (sched : List Nat)
    (hn : 0 < n) (hW : 0 < W)
    (hfin : Finished (runPool n success sched (initPool n W))) :
    (runPool n success sched (initPool n W)).processed.Perm (List.range n) ∧
    (runPool n success sched (initPool n W)).results.Perm
      ((List.range n).filter success) := by
  have hinv := poolInv_run n success sched _ (poolInv_init n W success)
  have hlen : (runPool n success sched (initPool n W)).workers.length = min W n := by
    rw [runPool_workers_length]
    exact List.length_replicate _ _
  have hpos : 0 < (runPool n success sched (initPool n W)).workers.length := by
    rw [hlen]
    exact lt_min hW hn
  obtain ⟨st, hst⟩ := List.exists_mem_of_length_pos hpos
  have hd : st = WStatus.done := hfin st hst
  have hin : n ≤ (runPool n success sched (initPool n W)).i :=
    hinv.donei (hd ▸ hst)
  have hieq : (runPool n success sched (initPool n W)).i = n :=
    Nat.le_antisymm hinv.ile hin
  have hb : busyIdx (runPool n success sched (initPool n W)).workers = [] := by
    unfold busyIdx
    rw [List.filterMap_eq_nil_iff]
    intro x hx
    rw [hfin x hx]
  have hpp : (runPool n success sched (initPool n W)).processed.Perm (List.range n) := by
    have hp2 := hinv.perm
    rw [hb, List.append_nil, hieq] at hp2
    exact hp2
  refine ⟨hpp, ?_⟩
  rw [hinv.res]
  exact hpp.filter success

theorem filter_partition_length {α : Type} (p : α → Bool) :
    ∀ l : List α, (l.filter p).length + (l.filter (fun a => !p a)).length = l.length
  | [] => rfl
  | a :: t => by
    have ht := filter_partition_length p t
    by_cases ha : p a = true <;> simp [List.filter_cons, ha] <;> omega

/-- Claim C6: with worker limit 3 over 7 stubs of which exactly 2 fail
deterministically, every terminating schedule of the pool processes each
stub exactly once and yields exactly 5 records — one per successful stub,
none for a failed stub — independently of which worker handles which stub;
a failure only skips its own stub and the pool still drains the queue. -/
theorem C6_pool_exactly_five (success : Nat → Bool) (sched : List Nat)
    (hfail : ((List.range 7).filter (fun i => !success i)).length = 2)
    (hfin : Finished (runPool 7 success sched (initPool 7 3))) :
    (runPool 7 success sched (initPool 7 3)).results.length = 5 ∧
    (runPool 7 success sched (initPool 7 3)).processed.Perm (List.range 7) ∧
    (runPool 7 success sched (initPool 7 3)).results.Perm
      ((List.range 7).filter success) := by
  obtain ⟨h1, h2⟩ := pool_spec 7 3 success sched (by omega) (by omega) hfin
  have hsucc : ((List.range 7).filter success).length = 5 := by
    have hpart := filter_partition_length success (List.range 7)
    rw [hfail, List.length_range] at hpart
    omega
  exact ⟨by rw [h2.length_eq, hsucc], h1, h2⟩

/-- A deterministic failure set: stubs 2 and 5 fail. -/
def successW : Nat → Bool := fun i => decide (i ≠ 2 ∧ i ≠ 5)

/-- A schedule where worker 0 drains the whole queue and then all three
workers observe the exhausted queue and terminate. -/
def schedW : List Nat := [0, 0, 0, 0, 0, 0, 0, 0, 0, 0, 0, 0, 0, 0, 0, 1, 2]

/-- Witness for C6: the concrete schedule terminates and yields 5 records. -/
theorem C6_pool_exactly_five_witness :
    (((List.range 7).filter (fun i => !successW i)).length = 2 ∧
      Finished (runPool 7 successW schedW (initPool 7 3))) ∧
    (runPool 7 successW schedW (initPool 7 3)).results.length = 5 :=
  ⟨⟨by decide, by decide⟩,
    (C6_pool_exactly_five successW schedW (by decide) (by decide)).1⟩
